import Mathlib

/-!
Verification development for the scylla parallel build/test orchestrator
(`scylla.py`).  The definitions below are a shallow embedding of the
program: external processes are modelled by oracles describing when they
exit and with which code, the multiprocessing queue is modelled as the
list of messages that arrive on it (in arrival order), and console
printing is modelled as the list of printed lines.
-/

set_option maxHeartbeats 1000000

namespace Scylla

/-- Console color attribute `COLOR_DEFAULT = 0x7`. -/
def COLOR_DEFAULT : Nat := 0x7

/-- Console color attribute `COLOR_RED = 0xC`. -/
def COLOR_RED : Nat := 0xC

/-- Console color attribute `COLOR_GREEN = 0xA`. -/
def COLOR_GREEN : Nat := 0xA

/-- Console color attribute `COLOR_YELLOW = 0xE`. -/
def COLOR_YELLOW : Nat := 0xE

/-- Console color attribute `COLOR_PURPLE = 0xD`. -/
def COLOR_PURPLE : Nat := 0xD

/-- `KILL_TIMEOUT_S = 3`: the deadline given to the test step. -/
def KILL_TIMEOUT_S : Int := 3

/-- `beginsWith n h` decides whether `n` is an initial segment of `h`. -/
def beginsWith : List Char → List Char → Bool
  | [], _ => true
  | _ :: _, [] => false
  | a :: as, b :: bs => a == b && beginsWith as bs

/-- Embedding of Python substring containment (`needle in hay`):
`hasSub n h` decides whether `n` occurs contiguously inside `h`. -/
def hasSub (needle : List Char) : List Char → Bool
  | [] => beginsWith needle []
  | c :: rest => beginsWith needle (c :: rest) || hasSub needle rest

/-- The ordered substring-to-color table `templates2colors` from `main`. -/
def templates2colors : List (String × Nat) :=
  [("error C", COLOR_RED), ("error:", COLOR_RED), ("FAILED", COLOR_RED),
   ("warning:", COLOR_YELLOW), ("", COLOR_DEFAULT)]

/-- The per-line classification loop of `main`: walk the table in order and
print the line with the first matching entry's color, then `break`;
`none` when no entry of the table matches (the line is then not printed). -/
def classifyLine (table : List (String × Nat)) (line : String) : Option Nat :=
  match table with
  | [] => none
  | (t, c) :: rest =>
    if hasSub t.toList line.toList then some c else classifyLine rest line

/-- Modelled from the spec's words for comparison with `classifyLine`:
"an ordered list of `(substring, severity)` pairs, first match wins". -/
def classifyFirstMatch (table : List (String × Nat)) (line : String) : Option Nat :=
  (table.find? (fun p => hasSub p.1.toList line.toList)).map Prod.snd

/-- Model of one external process as observed through `Popen.poll`/`wait`:
`exitsAt = some e` means the process exits on its own `e` seconds after
being started, with return code `exitCode`; `exitsAt = none` means it never
exits by itself.  `killCode` is the return code observed by `wait()` after
`kill()` (non-zero on every platform; `1` on Windows). -/
structure ProcModel where
  exitsAt : Option Nat
  exitCode : Int
  killCode : Int
deriving DecidableEq

/-- `process.poll()` at `t` seconds after start: `some code` once the
process has exited, `none` while it is still running. -/
def pollAt (p : ProcModel) (t : Nat) : Option Int :=
  match p.exitsAt with
  | none => none
  | some e => if e ≤ t then some p.exitCode else none

/-- The poll loop of `watch_process` (`for _ in range(1, timeout + 1)`):
each of the `timeout` iterations polls once and sleeps one second when the
process is still running.  `t` is the elapsed wall-clock time in seconds;
the final elapsed time is returned. -/
def watchLoop (p : ProcModel) : Nat → Nat → Nat
  | 0, t => t
  | n + 1, t => if (pollAt p t).isNone then watchLoop p n (t + 1) else watchLoop p n t

/-- Outcome of `watch_process`: the return code put on the queue, whether
`kill()` was invoked, and the elapsed wall-clock seconds at completion. -/
structure WatchResult where
  returncode : Int
  killed : Bool
  elapsed : Nat
deriving DecidableEq

/-- `watch_process`: open the log in `'w'` mode, start the process, run the
poll loop; if after the loop the process still has not exited, `kill()` it
and `wait()`; put the final return code on the queue. -/
def watch_process (p : ProcModel) (timeout : Nat) : WatchResult :=
  let t := watchLoop p timeout 0
  if (pollAt p t).isNone then
    { returncode := p.killCode, killed := true, elapsed := t }
  else
    { returncode := p.exitCode, killed := false, elapsed := t }

/-- The red console line printed by `run_command` when the watchdog branch
sees a truthy return code. -/
def killedMessage (compiler : String) : String :=
  "[" ++ compiler ++ "] Killed by watchdog"

/-- What a call to `run_command` produces: the return code handed back to
the caller and the list of console lines it printed. -/
structure RunResult where
  retcode : Int
  printed : List String
deriving DecidableEq

/-- `run_command`: a negative timeout means a plain `process.wait()` with no
watchdog (`none` models blocking forever when the process never exits);
otherwise the watchdog runs `watch_process`, `queue.get()` yields its return
code, and `[<compiler>] Killed by watchdog` is printed whenever that code is
truthy (non-zero). -/
def run_command (p : ProcModel) (timeout : Int) (compiler : String) : Option RunResult :=
  if timeout < 0 then
    p.exitsAt.map (fun _ => { retcode := p.exitCode, printed := [] })
  else
    let r := watch_process p timeout.toNat
    some { retcode := r.returncode,
           printed := if r.returncode ≠ 0 then [killedMessage compiler] else [] }

/-- The `Command` record of `cmake_builder`: a shell command's fatality
flag, timeout and status label (the command tokens themselves are opaque
to the control flow and omitted). -/
structure Command where
  fatal : Bool
  timeout : Int
  status : String
deriving DecidableEq

/-- Oracle for one step's external process: the return code `run_command`
reports and the combined stdout/stderr it wrote into the (truncated) log. -/
structure StepRun where
  retcode : Int
  output : String
deriving DecidableEq

/-- The commands list built by `cmake_builder`: an optional non-fatal
clean step, fatal CMake and build steps, and a fatal test step under
`KILL_TIMEOUT_S`. -/
def cmakeCommands (clean : Bool) : List Command :=
  (if clean then [{ fatal := false, timeout := -1, status := "Cleaning" }] else []) ++
  [{ fatal := true, timeout := -1, status := "Running CMake" },
   { fatal := true, timeout := -1, status := "Building" },
   { fatal := true, timeout := KILL_TIMEOUT_S, status := "Testing" }]

/-- A message on the shared multiprocessing queue (`MT_PROGRESS` /
`MT_RESULT` dictionaries). -/
inductive Event where
  | progress (id : String) (step : Nat) (stepsCount : Nat) (data : String)
  | result (id : String) (success : Bool) (output : String)
deriving DecidableEq

/-- The step loop of `cmake_builder`: for each command, put a progress
message (1-based step index) on the queue, run it — every invocation of
`run_command` opens the log file in `'w'` mode, so the log content after a
step is exactly that step's own output, the previous content being
discarded — and `break` when the return code is truthy and the command is
fatal.  Returns the emitted progress events, the success flag and the final
log content. -/
def runSteps (id : String) (total : Nat) :
    List (Command × StepRun) → Nat → String → List Event × Bool × String
  | [], _, log => ([], true, log)
  | (c, b) :: rest, i, _prev =>
    let ev := Event.progress id (i + 1) total c.status
    if b.retcode ≠ 0 ∧ c.fatal = true then
      ([ev], false, b.output)
    else
      let r := runSteps id total rest (i + 1) b.output
      (ev :: r.1, r.2.1, r.2.2)

/-- `cmake_builder`: run the step loop, then put exactly one result message
carrying the success flag and `open(logpath).read()` — the log file's final
content — on the queue. -/
def cmake_builder_trace (id : String) (steps : List (Command × StepRun))
    (initLog : String) : List Event :=
  let r := runSteps id steps.length steps 0 initLog
  r.1 ++ [Event.result id r.2.1 r.2.2]

/-- The log content left after running all steps of a pipeline in order,
each truncating the log: the output of the last step, or the initial
content when there are no steps. -/
def lastOut : List (Command × StepRun) → String → String
  | [], log => log
  | s :: rest, _ => lastOut rest s.2.output

/-- The prefix of a pipeline that actually executes: every step up to and
including the first fatal step with a truthy return code, or all steps when
no fatal failure occurs (a non-fatal failure does not stop the loop). -/
def executedSteps : List (Command × StepRun) → List (Command × StepRun)
  | [] => []
  | (c, b) :: rest =>
    if b.retcode ≠ 0 ∧ c.fatal = true then [(c, b)]
    else (c, b) :: executedSteps rest

/-- A message as seen by the supervisor's drain loop. -/
inductive Message where
  | progress (id : String) (step : Nat) (stepsCount : Nat) (data : String)
  | result (id : String) (success : Bool) (output : String)
deriving DecidableEq

/-- Whether a queue message is an `MT_RESULT` message. -/
def isResultMsg : Message → Bool
  | .result _ _ _ => true
  | _ => false

/-- Whether a queue message is a failing `MT_RESULT` message. -/
def isFailResultMsg : Message → Bool
  | .result _ success _ => !success
  | _ => false

/-- Outcome of the supervisor's drain loop.  `done` carries the final
`finished` counter, the buffered `stderrs`, whether the fail-fast branch
terminated and joined every process in the list, and the messages left
unread on the queue.  `blocked` models `queue.get()` blocking forever
because the queue is exhausted while `finished < len(processes)`. -/
inductive DrainOutcome where
  | done (finished : Nat) (stderrs : List (String × String))
         (terminatedAll : Bool) (remaining : List Message)
  | blocked
deriving DecidableEq

/-- The supervisor drain loop of `main` (`while finished < len(processes)`):
block on `queue.get()`; render progress messages; on a result message,
increment `finished`, buffer the log when the result failed or `--verbose`
is set, and — when the result failed and `--fatal` is set — terminate and
join every process in the list and `break`.  There is no detection of
worker-process death: an exhausted queue with `finished < numProcs` blocks
forever.  The loop condition is checked before each `queue.get()`; the
equations below split on the message list only to give one equation per
list constructor — for every list the value when `finished < numProcs`
fails is leaving the loop with the messages unread. -/
def drainLoop (fatal verbose : Bool) (numProcs : Nat) :
    List Message → Nat → List (String × String) → DrainOutcome
  | [], finished, stderrs =>
    if finished < numProcs then .blocked
    else .done finished stderrs false []
  | msg :: rest, finished, stderrs =>
    if finished < numProcs then
      match msg with
      | .progress _ _ _ _ =>
        drainLoop fatal verbose numProcs rest finished stderrs
      | .result id success output =>
        let stderrs2 := if !success || verbose then stderrs ++ [(id, output)] else stderrs
        if !success && fatal then
          .done (finished + 1) stderrs2 true rest
        else
          drainLoop fatal verbose numProcs rest (finished + 1) stderrs2
    else
      .done finished stderrs false (msg :: rest)

/-- `main`: for each project entry (modelled as its worker count and the
messages its workers deliver), spawn the workers, drain the queue, replay
the buffered logs and join the processes; after the project loop, `main`
executes `return 0` — the drained results influence only the printing,
never the return value. -/
def main_model (fatal verbose : Bool) (projects : List (Nat × List Message)) :
    List DrainOutcome × Nat :=
  (projects.map (fun pr => drainLoop fatal verbose pr.1 pr.2 0 []), 0)

/-- How the `if __name__ == '__main__'` block ended: `sys.exit(main())`
raising `SystemExit` with `main`'s return value (caught by neither except
clause), a `ScyllaError` (configuration error), or a `KeyboardInterrupt`. -/
inductive TopLevel where
  | completed (ret : Nat)
  | scyllaError (msg : String)
  | keyboardInterrupt
deriving DecidableEq

/-- The process exit code of the `if __name__ == '__main__'` block:
`sys.exit(main())` on normal completion; after either except clause the
fall-through `sys.exit(1)` runs. -/
def program_exit_code : TopLevel → Nat
  | .completed ret => ret
  | .scyllaError _ => 1
  | .keyboardInterrupt => 1

/-- Python `str.join`: `sep.join(parts)`. -/
def joinSep (sep : String) : List String → String
  | [] => ""
  | [x] => x
  | x :: y :: rest => x ++ sep ++ joinSep sep (y :: rest)

/-- The compiler spawn loop of `main`: `environ` is `os.environ` itself —
one shared mapping, not a per-worker copy — and each iteration executes
`environ['PATH'] = os.pathsep.join(path) + environ['PATH']` before spawning
that compiler's worker (note: no separator between the joined new entries
and the previous PATH value).  `spawnPaths sep groups init` returns the
spawn-time PATH value seen by each worker in order, `groups` being the
`normalize_paths(build_system.path + compiler.path)` result per compiler
and `init` the initial `environ['PATH']`. -/
def spawnPaths (sep : String) : List (List String) → String → List String
  | [], _ => []
  | g :: rest, path =>
    let path2 := joinSep sep g ++ path
    path2 :: spawnPaths sep rest path2

/-- The PATH value after prepending each group of `gs` in turn to `path`
(each prepend is `joinSep sep g ++ current`, with no separator in
between). -/
def processGroups (sep : String) : List (List String) → String → String
  | [], path => path
  | g :: rest, path => processGroups sep rest (joinSep sep g ++ path)

/-! ## Lemmas about substring search -/

/-- Unfolding `(a ++ b).toList`. -/
theorem toList_append (a b : String) : (a ++ b).toList = a.toList ++ b.toList := by
  cases a
  cases b
  rfl

/-- Every list is an initial segment of itself. -/
theorem beginsWith_refl (n : List Char) : beginsWith n n = true := by
  induction n with
  | nil => rfl
  | cons c rest ih => simp [beginsWith, ih]

/-- An initial segment of `h` is an initial segment of `h ++ t`. -/
theorem beginsWith_append_of (n : List Char) :
    ∀ (h t : List Char), beginsWith n h = true → beginsWith n (h ++ t) = true := by
  induction n with
  | nil => intro h t _; rfl
  | cons a as ih =>
    intro h t hb
    cases h with
    | nil => simp [beginsWith] at hb
    | cons b bs =>
      simp only [beginsWith, Bool.and_eq_true] at hb
      simp only [List.cons_append, beginsWith, Bool.and_eq_true]
      exact ⟨hb.1, ih bs t hb.2⟩

/-- An initial segment occurs as a substring. -/
theorem hasSub_of_beginsWith (n h : List Char) (hb : beginsWith n h = true) :
    hasSub n h = true := by
  cases h with
  | nil => simpa [hasSub] using hb
  | cons c rest => simp [hasSub, hb]

/-- `n` occurs in `n ++ t`. -/
theorem hasSub_self_append (n t : List Char) : hasSub n (n ++ t) = true :=
  hasSub_of_beginsWith _ _ (beginsWith_append_of n n t (beginsWith_refl n))

/-- The empty needle occurs in everything (Python `'' in s` is `True`). -/
theorem hasSub_nil_left (l : List Char) : hasSub [] l = true := by
  cases l <;> simp [hasSub, beginsWith]

/-- A substring of `h` is a substring of `h ++ t`. -/
theorem hasSub_append_right (n : List Char) :
    ∀ (h t : List Char), hasSub n h = true → hasSub n (h ++ t) = true := by
  intro h
  induction h with
  | nil =>
    intro t hs
    cases n with
    | nil => simp [hasSub_nil_left]
    | cons a as => simp [hasSub, beginsWith] at hs
  | cons c rest ih =>
    intro t hs
    simp only [hasSub, Bool.or_eq_true] at hs
    rcases hs with hb | hsub
    · exact hasSub_of_beginsWith _ _ (beginsWith_append_of n (c :: rest) t hb)
    · simp only [List.cons_append, hasSub, Bool.or_eq_true]
      right
      exact ih t hsub

/-- A substring of `h` is a substring of `l ++ h`. -/
theorem hasSub_append_left (n h : List Char) :
    ∀ (l : List Char), hasSub n h = true → hasSub n (l ++ h) = true := by
  intro l
  induction l with
  | nil => intro hs; simpa using hs
  | cons c l2 ih =>
    intro hs
    simp only [List.cons_append, hasSub, Bool.or_eq_true]
    right
    exact ih hs

/-! ## Log line classification (claim C8) -/

/-- The classification loop agrees with first-match-wins over the table. -/
theorem classifyLine_eq_firstMatch (table : List (String × Nat)) (line : String) :
    classifyLine table line = classifyFirstMatch table line := by
  induction table with
  | nil => rfl
  | cons p rest ih =>
    obtain ⟨t, c⟩ := p
    by_cases h : hasSub t.toList line.toList = true
    · have h2 := h
      simp only [String.toList] at h2
      simp [classifyLine, classifyFirstMatch, List.find?_cons, h, h2, String.toList]
    · have h2 : hasSub t.data line.data = false := by
        simpa [String.toList] using h
      simp [classifyLine, classifyFirstMatch, List.find?_cons, h, h2, String.toList, ih]

/-- Claim C8 (confirmed): log line classification applies the ordered
substring-to-severity table with first-match-wins (the loop agrees with the
first-match specification `classifyFirstMatch` on every table), falls back
to the default severity when none of the listed substrings matches (the
table's final entry has the empty template, which matches every line), and
on the lines `"foo error: bar"`, `"warning: baz"`, `"ok"` the rendered
severities are error (red), warning (yellow), default — in that order. -/
theorem classification_first_match_default :
    (∀ table line, classifyLine table line = classifyFirstMatch table line) ∧
    (∀ line : String,
      hasSub "error C".toList line.toList = false →
      hasSub "error:".toList line.toList = false →
      hasSub "FAILED".toList line.toList = false →
      hasSub "warning:".toList line.toList = false →
      classifyLine templates2colors line = some COLOR_DEFAULT) ∧
    ["foo error: bar", "warning: baz", "ok"].map (classifyLine templates2colors)
      = [some COLOR_RED, some COLOR_YELLOW, some COLOR_DEFAULT] := by
  refine ⟨classifyLine_eq_firstMatch, ?_, ?_⟩
  · intro line h1 h2 h3 h4
    simp only [String.toList] at h1 h2 h3 h4
    simp [classifyLine, templates2colors, h1, h2, h3, h4, hasSub_nil_left]
  · decide

/-- Witness for claim C8 at the concrete line `"ok"`: none of the four
non-empty templates matches, so the default severity is rendered. -/
theorem classification_first_match_default_witness :
    classifyLine templates2colors "ok" = some COLOR_DEFAULT :=
  classification_first_match_default.2.1 "ok" (by decide) (by decide) (by decide) (by decide)

/-! ## Exit code (claim C1) -/

/-- Claim C1 (counterexample): a run with one spawned worker whose
ResultEvent reports failure still makes `main` return 0 — `sys.exit(main())`
therefore exits the process with code 0, not 1 as the claim requires. -/
theorem exit_code_zero_despite_failure :
    program_exit_code (TopLevel.completed
      (main_model false false [(1, [Message.result "gcc" false "log"])]).2) = 0
    ∧ (0 : Nat) ≠ 1 :=
  ⟨rfl, by decide⟩

/-- Claim C1 (amended): whenever `main` completes normally the process exit
code is 0 — regardless of how many ResultEvents reported failure — and the
exit code is 1 exactly on configuration error (`ScyllaError`) or user
interrupt, where the except clauses fall through to `sys.exit(1)`. -/
theorem exit_code_always_zero_on_completion :
    (∀ (fatal verbose : Bool) (projects : List (Nat × List Message)),
      program_exit_code (TopLevel.completed (main_model fatal verbose projects).2) = 0) ∧
    (∀ m, program_exit_code (TopLevel.scyllaError m) = 1) ∧
    program_exit_code TopLevel.keyboardInterrupt = 1 :=
  ⟨fun _ _ _ => rfl, fun _ => rfl, rfl⟩

/-! ## Watchdog (claims C5, C6, C10) -/

/-- For a process that never exits on its own, every iteration of the poll
loop sleeps one second: the loop ends after exactly `n` seconds. -/
theorem watchLoop_none (p : ProcModel) (h : p.exitsAt = none) :
    ∀ (n t : Nat), watchLoop p n t = t + n := by
  intro n
  induction n with
  | zero => intro t; rfl
  | succ n ih =>
    intro t
    simp only [watchLoop, pollAt, h, Option.isNone_none, if_pos, ih]
    omega

/-- For a process that exits on its own at time `e`, the poll loop ends at
`t` if the process already exited, and otherwise sleeps up to the exit time
or the iteration budget, whichever comes first. -/
theorem watchLoop_some (p : ProcModel) (e : Nat) (h : p.exitsAt = some e) :
    ∀ (n t : Nat), watchLoop p n t = if e ≤ t then t else min e (t + n) := by
  intro n
  induction n with
  | zero =>
    intro t
    by_cases he : e ≤ t
    · simp [watchLoop, he]
    · simp [watchLoop, he]
      omega
  | succ n ih =>
    intro t
    by_cases he : e ≤ t
    · simp [watchLoop, pollAt, h, he, ih]
    · simp only [watchLoop, pollAt, h, if_neg he, Option.isNone_none, if_pos, ih]
      by_cases he2 : e ≤ t + 1 <;> simp [he2] <;> omega

/-- Claim C5 (confirmed): for a deadline `T > 0` and a command whose
process never exits on its own, the watchdog-wrapped invocation always
terminates (`watch_process` is a total function): the poll loop runs its
`T` one-second iterations, each sleeping because the process is still
running, so the process is killed no earlier and no later than `T` seconds
after start (`elapsed = T`), `kill()` is followed by `wait()`, and the
reported return code is the kill code — non-zero, i.e. failure. -/
theorem watchdog_kills_at_deadline (p : ProcModel) (T : Nat)
    (hrun : p.exitsAt = none) (hkill : p.killCode ≠ 0) (hT : 0 < T) :
    (watch_process p T).killed = true ∧ (watch_process p T).returncode ≠ 0 ∧
    (watch_process p T).elapsed = T := by
  have hw : watchLoop p T 0 = T := by
    rw [watchLoop_none p hrun]
    omega
  simp [watch_process, hw, pollAt, hrun, hkill]

/-- Witness for claim C5: a process that never exits, kill code 1,
deadline 3 seconds. -/
theorem watchdog_kills_at_deadline_witness :
    (watch_process ⟨none, 0, 1⟩ 3).killed = true ∧
    (watch_process ⟨none, 0, 1⟩ 3).returncode ≠ 0 ∧
    (watch_process ⟨none, 0, 1⟩ 3).elapsed = 3 :=
  watchdog_kills_at_deadline ⟨none, 0, 1⟩ 3 rfl (by decide) (by decide)

/-- Claim C6 (confirmed): for a process that exits with code 0 before the
deadline `T`, the wrapped invocation never calls `kill()` and
`run_command` returns the process's real exit code 0 without printing the
watchdog message. -/
theorem watchdog_returns_real_exit_code (p : ProcModel) (T e : Nat)
    (compiler : String) (hexit : p.exitsAt = some e) (hcode : p.exitCode = 0)
    (he : e < T) :
    run_command p (T : Int) compiler = some { retcode := 0, printed := [] } ∧
    (watch_process p T).killed = false := by
  have hw : watchLoop p T 0 = e := by
    rw [watchLoop_some p e hexit]
    by_cases h0 : e ≤ 0 <;> simp [h0] <;> omega
  have hwp : watch_process p T = { returncode := 0, killed := false, elapsed := e } := by
    simp [watch_process, hw, pollAt, hexit, hcode]
  constructor
  · have hnn : ¬ ((T : Int) < 0) := by
      simp
    simp only [run_command, if_neg hnn, Int.toNat_natCast, hwp]
    simp
  · simp [hwp]

/-- Witness for claim C6: a process exiting with code 0 after 1 second,
deadline 3 seconds. -/
theorem watchdog_returns_real_exit_code_witness :
    run_command ⟨some 1, 0, 1⟩ ((3 : Nat) : Int) "gcc" = some { retcode := 0, printed := [] } ∧
    (watch_process ⟨some 1, 0, 1⟩ 3).killed = false :=
  watchdog_returns_real_exit_code ⟨some 1, 0, 1⟩ 3 1 "gcc" rfl rfl (by decide)

/-- Claim C10 (confirmed): under a non-negative timeout, `run_command`
prints `[<compiler>] Killed by watchdog` exactly when the return code read
from the queue is non-zero — the printed message depends only on the return
code, not on whether `kill()` actually ran. -/
theorem killed_message_iff_nonzero_retcode (p : ProcModel) (timeout : Int)
    (compiler : String) (h : 0 ≤ timeout) :
    ∃ res, run_command p timeout compiler = some res ∧
      (killedMessage compiler ∈ res.printed ↔ res.retcode ≠ 0) := by
  rw [run_command, if_neg (not_lt.mpr h)]
  by_cases hz : (watch_process p timeout.toNat).returncode = 0
  · exact ⟨_, rfl, by simp [hz]⟩
  · exact ⟨_, rfl, by simp [hz]⟩

/-- Witness for claim C10: a process that exits on its own immediately with
code 2 under a 5-second deadline — never killed, yet the message is
printed because the code is non-zero. -/
theorem killed_message_iff_nonzero_retcode_witness :
    ∃ res, run_command ⟨some 0, 2, 1⟩ 5 "gcc" = some res ∧
      (killedMessage "gcc" ∈ res.printed ↔ res.retcode ≠ 0) :=
  killed_message_iff_nonzero_retcode ⟨some 0, 2, 1⟩ 5 "gcc" (by decide)

/-! ## Worker pipeline (claims C3, C4) -/

/-- If some step of the list is fatal with a non-zero return code, the step
loop ends with `success = false`, and every emitted progress event carries
a 1-based step index of at most `i0 + i + 1` — no progress event is ever
emitted for a step beyond the failing one. -/
theorem runSteps_fatal_stops (id : String) (total : Nat) :
    ∀ (steps : List (Command × StepRun)) (i0 : Nat) (log : String) (i : Nat)
      (hi : i < steps.length),
      (steps.get ⟨i, hi⟩).1.fatal = true →
      (steps.get ⟨i, hi⟩).2.retcode ≠ 0 →
      ∃ evs flog, runSteps id total steps i0 log = (evs, false, flog) ∧
        ∀ e ∈ evs, ∃ s d, e = Event.progress id s total d ∧ s ≤ i0 + i + 1 := by
  intro steps
  induction steps with
  | nil =>
    intro i0 log i hi
    exact absurd hi (by simp)
  | cons sb rest ih =>
    intro i0 log i hi hf hr
    obtain ⟨c, b⟩ := sb
    by_cases hstop : b.retcode ≠ 0 ∧ c.fatal = true
    · refine ⟨[Event.progress id (i0 + 1) total c.status], b.output, ?_, ?_⟩
      · simp [runSteps, hstop]
      · intro e he
        simp only [List.mem_singleton] at he
        exact ⟨i0 + 1, c.status, he, by omega⟩
    · cases i with
      | zero =>
        exact absurd ⟨by simpa using hr, by simpa using hf⟩ hstop
      | succ i =>
        have hi2 : i < rest.length := by simpa using hi
        obtain ⟨evs, flog, heq, hbound⟩ :=
          ih (i0 + 1) b.output i hi2 (by simpa using hf) (by simpa using hr)
        refine ⟨Event.progress id (i0 + 1) total c.status :: evs, flog, ?_, ?_⟩
        · simp [runSteps, hstop, heq]
        · intro e he
          rcases List.mem_cons.mp he with h | h
          · exact ⟨i0 + 1, c.status, h, by omega⟩
          · obtain ⟨s, d, he2, hs⟩ := hbound e h
            exact ⟨s, d, he2, by omega⟩

/-- Claim C4 (confirmed): for every pipeline containing a fatal step `i`
(0-based) whose process exits with a non-zero code, the builder stops at or
before step `i`: every emitted progress event has 1-based index at most
`i + 1` (so steps `i+1 .. N-1` are never executed and get no
ProgressEvent), the final success flag is `false`, and exactly one
ResultEvent is emitted, after all ProgressEvents. -/
theorem fatal_step_stops_pipeline (id : String) (steps : List (Command × StepRun))
    (initLog : String) (i : Nat) (hi : i < steps.length)
    (hf : (steps.get ⟨i, hi⟩).1.fatal = true)
    (hr : (steps.get ⟨i, hi⟩).2.retcode ≠ 0) :
    ∃ evs flog, cmake_builder_trace id steps initLog
        = evs ++ [Event.result id false flog] ∧
      ∀ e ∈ evs, ∃ s d, e = Event.progress id s steps.length d ∧ s ≤ i + 1 := by
  obtain ⟨evs, flog, heq, hbound⟩ :=
    runSteps_fatal_stops id steps.length steps 0 initLog i hi hf hr
  refine ⟨evs, flog, ?_, ?_⟩
  · simp [cmake_builder_trace, heq]
  · intro e he
    obtain ⟨s, d, he2, hs⟩ := hbound e he
    exact ⟨s, d, he2, by omega⟩

/-- Witness for claim C4: a two-step pipeline whose first step is fatal and
fails with code 1 — only that step's progress event is emitted (index 1),
the success flag is false and the single result event comes last. -/
theorem fatal_step_stops_pipeline_witness :
    ∃ evs flog,
      cmake_builder_trace "gcc"
        [({ fatal := true, timeout := -1, status := "Running CMake" },
          { retcode := 1, output := "err" }),
         ({ fatal := true, timeout := -1, status := "Building" },
          { retcode := 0, output := "b" })] ""
        = evs ++ [Event.result "gcc" false flog] ∧
      ∀ e ∈ evs, ∃ s d, e = Event.progress "gcc" s 2 d ∧ s ≤ 1 :=
  fatal_step_stops_pipeline "gcc" _ "" 0 (by decide) rfl (by decide)

/-- Claim C3 (counterexample): a pipeline of two succeeding steps with
outputs `"A"` and `"B"` ends with a ResultEvent whose log is `"B"` alone —
the first executed step's output `"A"` is not contained in the log read
back, because each step reopened the log in truncate (`'w'`) mode rather
than append mode. -/
theorem result_log_drops_earlier_step_output :
    cmake_builder_trace "gcc"
      [({ fatal := true, timeout := -1, status := "Running CMake" },
        { retcode := 0, output := "A" }),
       ({ fatal := true, timeout := -1, status := "Building" },
        { retcode := 0, output := "B" })] ""
      = [Event.progress "gcc" 1 2 "Running CMake",
         Event.progress "gcc" 2 2 "Building",
         Event.result "gcc" true "B"]
    ∧ hasSub "A".toList "B".toList = false := by
  constructor
  · rfl
  · decide

/-- The log content left by a pipeline of truncating steps is the output of
its last step. -/
theorem lastOut_getLast :
    ∀ (steps : List (Command × StepRun)) (log : String) (h : steps ≠ []),
      lastOut steps log = (steps.getLast h).2.output := by
  intro steps
  induction steps with
  | nil =>
    intro log h
    exact absurd rfl h
  | cons s rest ih =>
    intro log h
    cases rest with
    | nil => simp [lastOut, List.getLast]
    | cons s2 r2 =>
      rw [show lastOut (s :: s2 :: r2) log = lastOut (s2 :: r2) s.2.output from rfl]
      rw [ih s.2.output (by simp)]
      simp [List.getLast_cons]

/-- For every pipeline — whether it runs to completion, stops early at a
fatal failing step, or continues past a non-fatal failing step — the step
loop's final log content is `lastOut` over the executed prefix: the output
of the last step that actually ran.  The number of emitted progress events
equals the number of executed steps. -/
theorem runSteps_executed (id : String) (total : Nat) :
    ∀ (steps : List (Command × StepRun)) (i0 : Nat) (log : String),
      ∃ evs success,
        runSteps id total steps i0 log
          = (evs, success, lastOut (executedSteps steps) log)
        ∧ evs.length = (executedSteps steps).length := by
  intro steps
  induction steps with
  | nil =>
    intro i0 log
    exact ⟨[], true, rfl, rfl⟩
  | cons sb rest ih =>
    intro i0 log
    obtain ⟨c, b⟩ := sb
    by_cases hstop : b.retcode ≠ 0 ∧ c.fatal = true
    · refine ⟨[Event.progress id (i0 + 1) total c.status], false, ?_, ?_⟩
      · simp [runSteps, hstop, executedSteps, lastOut]
      · simp [executedSteps, hstop]
    · obtain ⟨evs, success, heq, hlen⟩ := ih (i0 + 1) b.output
      refine ⟨Event.progress id (i0 + 1) total c.status :: evs, success, ?_, ?_⟩
      · simp [runSteps, hstop, heq, executedSteps, lastOut]
      · simp [executedSteps, hstop, hlen]

/-- Claim C3 (amended): every invocation of `run_command` opens the log
file in `'w'` (truncate) mode, so for every pipeline — completed, stopped
early by a fatal failing step, or continued past a non-fatal failure — the
log read back for the ResultEvent is the output of the last executed step
only, not the concatenation of every executed step's output: the single
trailing result event carries `lastOut` of the executed prefix, which for a
non-empty executed prefix is its last element's output. -/
theorem result_log_is_last_step_output (id : String)
    (steps : List (Command × StepRun)) (initLog : String) :
    (∃ evs success, cmake_builder_trace id steps initLog
        = evs ++ [Event.result id success (lastOut (executedSteps steps) initLog)]
        ∧ evs.length = (executedSteps steps).length) ∧
    ∀ (h : executedSteps steps ≠ []),
      lastOut (executedSteps steps) initLog
        = ((executedSteps steps).getLast h).2.output := by
  constructor
  · obtain ⟨evs, success, heq, hlen⟩ := runSteps_executed id steps.length steps 0 initLog
    exact ⟨evs, success, by simp [cmake_builder_trace, heq], hlen⟩
  · intro h
    exact lastOut_getLast _ initLog h

/-- Witness for claim C3 (amended) on a pipeline stopped early by its first
fatal failing step (output `"err"`): the executed prefix is that single
step and the ResultEvent log is its output. -/
theorem result_log_is_last_step_output_witness :
    lastOut
      (executedSteps
        [({ fatal := true, timeout := -1, status := "Running CMake" },
          { retcode := 1, output := "err" }),
         ({ fatal := true, timeout := -1, status := "Building" },
          { retcode := 0, output := "b" })]) ""
    = ((executedSteps
        [({ fatal := true, timeout := -1, status := "Running CMake" },
          { retcode := 1, output := "err" }),
         ({ fatal := true, timeout := -1, status := "Building" },
          { retcode := 0, output := "b" })]).getLast (by decide)).2.output :=
  (result_log_is_last_step_output "gcc"
    [({ fatal := true, timeout := -1, status := "Running CMake" },
      { retcode := 1, output := "err" }),
     ({ fatal := true, timeout := -1, status := "Building" },
      { retcode := 0, output := "b" })] "").2 (by decide)

/-! ## Supervisor drain loop (claims C2, C7) -/

/-- Claim C2 (counterexample): one spawned worker that dies before putting
any message on the queue — the drain loop's `queue.get()` blocks forever.
No failure ResultEvent is synthesized and worker death is never detected
independently of the channel. -/
theorem drain_blocks_on_crashed_worker :
    drainLoop false false 1 [] 0 [] = DrainOutcome.blocked := by
  decide

/-- With fail-fast disabled, the drain loop starting from `finished`
already-seen results blocks forever exactly when the channel carries fewer
result messages than are still needed. -/
theorem drain_blocked_iff_aux (v : Bool) (n : Nat) :
    ∀ (msgs : List Message) (finished : Nat) (st : List (String × String)),
      (drainLoop false v n msgs finished st = DrainOutcome.blocked ↔
        finished + msgs.countP isResultMsg < n) := by
  intro msgs
  induction msgs with
  | nil =>
    intro finished st
    rw [drainLoop]
    by_cases h : finished < n <;> simp [h, List.countP_nil]
  | cons m rest ih =>
    intro finished st
    by_cases h : finished < n
    · cases m with
      | progress a b c d =>
        rw [drainLoop]
        simp [h, ih, List.countP_cons, isResultMsg]
      | result id success output =>
        rw [drainLoop]
        cases success <;>
          simp [h, ih, List.countP_cons, isResultMsg] <;> omega
    · cases m <;> rw [drainLoop] <;> simp [h, List.countP_cons] <;> omega

/-- Claim C2 (amended): the supervisor counts result messages and leaves
the drain loop once one per spawned worker has arrived; with fail-fast
disabled, the loop blocks forever if and only if the channel delivers fewer
ResultEvents than there are spawned workers — a worker whose process dies
without emitting its ResultEvent therefore hangs the supervisor, since no
process-death detection or ResultEvent synthesis exists. -/
theorem drain_blocked_iff_missing_results (v : Bool) (n : Nat) (msgs : List Message) :
    drainLoop false v n msgs 0 [] = DrainOutcome.blocked ↔
      msgs.countP isResultMsg < n := by
  have := drain_blocked_iff_aux v n msgs 0 []
  simpa using this

/-- With fail-fast enabled, once a failing result message is reached while
workers are still unfinished, the loop terminates every process in the
list, joins them, and breaks with the remaining messages unread. -/
theorem drain_failfast_aux (v : Bool) (n : Nat) (id out : String) (post : List Message) :
    ∀ (pre : List Message) (finished : Nat) (st : List (String × String)),
      (∀ m ∈ pre, isFailResultMsg m = false) →
      finished + pre.countP isResultMsg < n →
      ∃ st2, drainLoop true v n (pre ++ Message.result id false out :: post) finished st
        = DrainOutcome.done (finished + pre.countP isResultMsg + 1) st2 true post := by
  intro pre
  induction pre with
  | nil =>
    intro finished st _ hcount
    simp only [List.countP_nil, Nat.add_zero] at hcount ⊢
    refine ⟨st ++ [(id, out)], ?_⟩
    rw [List.nil_append, drainLoop]
    simp [hcount]
  | cons m pre2 ih =>
    intro finished st hfail hcount
    have hm := hfail m (List.mem_cons_self m pre2)
    have hlt : finished < n := by
      have h1 : pre2.countP isResultMsg ≤ (m :: pre2).countP isResultMsg := by
        simp [List.countP_cons]
      omega
    cases m with
    | progress a b c d =>
      have hc2 : finished + pre2.countP isResultMsg < n := by
        have h2 := hcount
        simp [List.countP_cons, isResultMsg] at h2
        omega
      obtain ⟨st2, heq⟩ :=
        ih finished st (fun x hx => hfail x (List.mem_cons_of_mem _ hx)) hc2
      refine ⟨st2, ?_⟩
      have hstep : drainLoop true v n
            ((Message.progress a b c d :: pre2) ++ Message.result id false out :: post)
            finished st
          = drainLoop true v n (pre2 ++ Message.result id false out :: post) finished st := by
        rw [List.cons_append, drainLoop]
        simp [hlt]
      rw [hstep, heq]
      have hnum : finished + pre2.countP isResultMsg + 1
          = finished + (Message.progress a b c d :: pre2).countP isResultMsg + 1 := by
        simp [List.countP_cons, isResultMsg]
      rw [hnum]
    | result rid rsuccess rout =>
      have hsucc : rsuccess = true := by
        simpa [isFailResultMsg] using hm
      subst hsucc
      have hc2 : finished + 1 + pre2.countP isResultMsg < n := by
        have h2 := hcount
        simp [List.countP_cons, isResultMsg] at h2
        omega
      obtain ⟨st2, heq⟩ :=
        ih (finished + 1) (if v = true then st ++ [(rid, rout)] else st)
          (fun x hx => hfail x (List.mem_cons_of_mem _ hx)) hc2
      refine ⟨st2, ?_⟩
      have hstep : drainLoop true v n
            ((Message.result rid true rout :: pre2) ++ Message.result id false out :: post)
            finished st
          = drainLoop true v n (pre2 ++ Message.result id false out :: post) (finished + 1)
              (if v = true then st ++ [(rid, rout)] else st) := by
        rw [List.cons_append, drainLoop]
        simp [hlt]
      rw [hstep, heq]
      have hnum : finished + 1 + pre2.countP isResultMsg + 1
          = finished + (Message.result rid true rout :: pre2).countP isResultMsg + 1 := by
        simp [List.countP_cons, isResultMsg]
        omega
      rw [hnum]

/-- Claim C7 (confirmed): with fail-fast enabled, when a failing
ResultEvent arrives while other workers are still running (fewer results
than workers seen so far, none of them failing), the supervisor terminates
and joins every process in its list — a superset of the still-running
workers — and breaks out of the drain loop at once: the messages after the
failing result are never processed. -/
theorem failfast_terminates_and_stops_draining (v : Bool) (n : Nat)
    (id out : String) (pre post : List Message)
    (hfail : ∀ m ∈ pre, isFailResultMsg m = false)
    (hcount : pre.countP isResultMsg < n) :
    ∃ st2, drainLoop true v n (pre ++ Message.result id false out :: post) 0 []
      = DrainOutcome.done (pre.countP isResultMsg + 1) st2 true post := by
  obtain ⟨st2, heq⟩ := drain_failfast_aux v n id out post pre 0 [] hfail (by omega)
  refine ⟨st2, ?_⟩
  rw [heq]
  congr 1
  omega

/-- Witness for claim C7: two workers, one progress message, then a failing
result for "gcc" while "clang" is still running — the loop ends immediately
with every process terminated and the later message unread. -/
theorem failfast_terminates_and_stops_draining_witness :
    ∃ st2, drainLoop true false 2
        ([Message.progress "gcc" 1 3 "Building"]
          ++ Message.result "gcc" false "boom" :: [Message.result "clang" true "ok"]) 0 []
      = DrainOutcome.done 1 st2 true [Message.result "clang" true "ok"] :=
  failfast_terminates_and_stops_draining false 2 "gcc" "boom"
    [Message.progress "gcc" 1 3 "Building"] [Message.result "clang" true "ok"]
    (by decide) (by decide)

/-! ## PATH accumulation across spawned workers (claim C9) -/

/-- An element of `g` occurs as a substring of `sep.join(g)`. -/
theorem hasSub_joinSep_of_mem (sep e : String) :
    ∀ (g : List String), e ∈ g → hasSub e.toList (joinSep sep g).toList = true := by
  intro g
  induction g with
  | nil =>
    intro h
    simp at h
  | cons x rest ih =>
    intro hmem
    cases rest with
    | nil =>
      have hx : e = x := by simpa using hmem
      subst hx
      have h1 := hasSub_self_append e.toList []
      simpa [joinSep] using h1
    | cons y r2 =>
      rcases List.mem_cons.mp hmem with h | h
      · subst h
        rw [joinSep, toList_append, toList_append, List.append_assoc]
        exact hasSub_self_append _ _
      · have h1 := ih h
        rw [joinSep, toList_append, toList_append]
        exact hasSub_append_left _ _ _ h1

/-- A substring of the current PATH value survives every later prepend of
the spawn loop. -/
theorem processGroups_keeps_sub (sep : String) (x : List Char) :
    ∀ (gs : List (List String)) (path : String),
      hasSub x path.toList = true →
      hasSub x (processGroups sep gs path).toList = true := by
  intro gs
  induction gs with
  | nil =>
    intro path h
    simpa [processGroups] using h
  | cons g rest ih =>
    intro path h
    show hasSub x (processGroups sep rest (joinSep sep g ++ path)).toList = true
    apply ih
    rw [toList_append]
    exact hasSub_append_left _ _ _ h

/-- Every entry of every group prepended by the spawn loop occurs as a
substring of the resulting PATH value. -/
theorem processGroups_contains (sep : String) :
    ∀ (gs : List (List String)) (path : String) (g : List String) (e : String),
      g ∈ gs → e ∈ g →
      hasSub e.toList (processGroups sep gs path).toList = true := by
  intro gs
  induction gs with
  | nil =>
    intro path g e hg
    simp at hg
  | cons g0 rest ih =>
    intro path g e hg he
    rcases List.mem_cons.mp hg with h | h
    · subst h
      show hasSub e.toList (processGroups sep rest (joinSep sep g ++ path)).toList = true
      apply processGroups_keeps_sub
      rw [toList_append]
      exact hasSub_append_right _ _ _ (hasSub_joinSep_of_mem sep e g he)
    · exact ih _ g e h he

/-- The `k`-th spawn-time PATH value is the result of prepending the first
`k + 1` groups in order to the initial PATH. -/
theorem spawnPaths_get (sep : String) :
    ∀ (groups : List (List String)) (path : String) (k : Nat), k < groups.length →
      (spawnPaths sep groups path)[k]? = some (processGroups sep (groups.take (k + 1)) path) := by
  intro groups
  induction groups with
  | nil =>
    intro path k hk
    simp at hk
  | cons g rest ih =>
    intro path k hk
    cases k with
    | zero =>
      simp [spawnPaths, processGroups, List.take]
    | succ k =>
      have hk2 : k < rest.length := by simpa using hk
      show (spawnPaths sep (g :: rest) path)[k + 1]? = _
      rw [show spawnPaths sep (g :: rest) path
            = (joinSep sep g ++ path) :: spawnPaths sep rest (joinSep sep g ++ path) from rfl]
      rw [List.getElem?_cons_succ, ih _ k hk2]
      rw [show (g :: rest).take (k + 1 + 1) = g :: rest.take (k + 1) from rfl]
      rfl

/-- Claim C9 (confirmed): the spawn loop mutates the one shared environment
mapping, so the `k`-th spawned worker's PATH value is the initial PATH with
the joined, normalized path groups of compilers `0 .. k` prepended in turn
— each group glued to the previous PATH value with no separator in between
(`processGroups`) — and that value contains every path entry of every
compiler processed up to and including the `k`-th as a substring. -/
theorem spawn_path_accumulates_groups (sep init : String)
    (groups : List (List String)) (k : Nat) (hk : k < groups.length) :
    (spawnPaths sep groups init)[k]? = some (processGroups sep (groups.take (k + 1)) init) ∧
    ∀ g ∈ groups.take (k + 1), ∀ e ∈ g,
      hasSub e.toList (processGroups sep (groups.take (k + 1)) init).toList = true :=
  ⟨spawnPaths_get sep groups init k hk,
   fun g hg e he => processGroups_contains sep _ init g e hg he⟩

/-- Witness for claim C9: two compilers with normalized path groups
`["a", "b"]` and `["c"]` and initial PATH `"X"` — the second worker's PATH
is `"c" ++ "a;b" ++ "X"` with no separators between the glued parts. -/
theorem spawn_path_accumulates_groups_witness :
    (spawnPaths ";" [["a", "b"], ["c"]] "X")[1]?
      = some (processGroups ";" ([["a", "b"], ["c"]].take 2) "X") :=
  (spawn_path_accumulates_groups ";" "X" [["a", "b"], ["c"]] 1 (by decide)).1

end Scylla
